import Mathlib

/-!
Verification of the fork-observer header-observatory implementation.

This file gives a shallow embedding of the core algorithms of the
repository (src/node.rs, src/headertree.rs, src/main.rs, src/db.rs,
src/rss.rs, src/api.rs) and proves or refutes the specification claims
about them.  Machine integers (u64, u32, usize, i64) are modelled as
`Nat`/`Int`, with explicit modular wrap-around where the Rust code relies
on wrapping arithmetic.  Fallible fetch operations return `Except`.
Backends (RPC/REST/Electrum servers) are modelled as oracles: pure
functions from requests to responses.
-/

/-- u64 wrapping subtraction `a - b` (Rust release-mode semantics). -/
def wsub64 (a b : Nat) : Nat := (a % 2 ^ 64 + (2 ^ 64 - b % 2 ^ 64)) % 2 ^ 64

/-- `usize::MAX` (64-bit target), used by `strip_tree` as the root sentinel. -/
def usizeMax : Nat := 2 ^ 64 - 1

/-- `u32::MAX`, used by the SSE stream as the in-band catch-up signal. -/
def u32Max : Nat := 2 ^ 32 - 1

/-- Chain tip status as reported by `getchaintips` (types.rs / bitcoincore_rpc). -/
inductive ChainTipStatus where
  | active
  | validFork
  | validHeaders
  | headersOnly
  | invalid
  deriving DecidableEq, Repr

/-- Modelled from the spec: `ChainTipStatus`'s string rendering used by the
JSON/RSS layer ("active", "valid-fork", ...); the `ToString` impl lives in the
types module, of which only an older revision is in src/. -/
def ChainTipStatus.toStr : ChainTipStatus → String
  | .active => "active"
  | .validFork => "valid-fork"
  | .validHeaders => "valid-headers"
  | .headersOnly => "headers-only"
  | .invalid => "invalid"

/-- An 80-byte block header.  We keep only the fields the algorithms read:
`prev_blockhash`, and the block hash (in reality a deterministic digest of the
header bytes, here carried as a field, abstracting the hash function). -/
structure Header where
  hash : Nat
  prev_blockhash : Nat
  deriving DecidableEq, Repr, Inhabited

/-- `Header::block_hash()`. -/
def Header.block_hash (h : Header) : Nat := h.hash

/-- Modelled from the spec: `ChainTip` (`{height, hash, branchlen, status}`),
declared in the types module of which only an older revision is in src/.
The `hash` field (a string in Rust, parsed by `block_hash()`) is modelled
directly as the hash value. -/
structure ChainTip where
  height : Nat
  hash : Nat
  branchlen : Nat
  status : ChainTipStatus
  deriving DecidableEq, Repr

/-- `ChainTip::block_hash()`. -/
def ChainTip.block_hash (t : ChainTip) : Nat := t.hash

/-- Modelled from the spec: `HeaderInfo` = `{height, header, miner}`; the
revision of types.rs in src/ predates the `miner` field, but node.rs, main.rs
and headertree.rs all construct and read it. -/
structure HeaderInfo where
  height : Nat
  header : Header
  miner : String
  deriving DecidableEq, Repr, Inhabited

/-- `HeaderInfo::update_miner` (used by the pool-id worker in main.rs). -/
def HeaderInfo.update_miner (h : HeaderInfo) (m : String) : HeaderInfo :=
  { h with miner := m }

/-- The compact fetch-error enum (error.rs): we keep the `DataError` kind,
which node.rs constructs itself, and fold every transport-level error kind
(RPC, REST, Electrum) into `Transport`. -/
inductive FetchError where
  | DataError (msg : String)
  | Transport (msg : String)
  deriving DecidableEq, Repr

instance {ε α : Type} [DecidableEq ε] [DecidableEq α] : DecidableEq (Except ε α) :=
  fun a b =>
    match a, b with
    | .error x, .error y => decidable_of_iff (x = y) (by simp)
    | .error _, .ok _ => isFalse (by simp)
    | .ok _, .error _ => isFalse (by simp)
    | .ok x, .ok y => decidable_of_iff (x = y) (by simp)

/-- `HeaderFetchType` (node.rs): whether a backend fetches headers by height
or by hash. -/
inductive HeaderFetchType where
  | Height
  | Hash
  deriving DecidableEq, Repr

/-- A `HashMap<BlockHash, NodeIndex>` modelled as an association list whose
keys are unique (insert overwrites). -/
abbrev HashIndex := List (Nat × Nat)

/-- `HashMap::contains_key`. -/
def hmContains (m : HashIndex) (k : Nat) : Bool :=
  m.any (fun p => p.1 == k)

/-- `HashMap::get`. -/
def hmLookup (m : HashIndex) (k : Nat) : Option Nat :=
  (m.find? (fun p => p.1 == k)).map (·.2)

/-- `HashMap::insert` (overwrites the value of an existing key). -/
def hmInsert (m : HashIndex) (k v : Nat) : HashIndex :=
  if hmContains m k then
    m.map (fun p => if p.1 == k then (k, v) else p)
  else
    m ++ [(k, v)]

/-- A petgraph `DiGraph<HeaderInfo, bool>`: vertices are identified by their
position in `nodes`; `edges` is the insertion-ordered edge list. -/
structure Graph where
  nodes : List HeaderInfo
  edges : List (Nat × Nat)
  deriving DecidableEq, Repr

/-- In-degree of vertex `v`: number of edges whose target is `v`. -/
def Graph.indeg (g : Graph) (v : Nat) : Nat :=
  (g.edges.filter (fun e => e.2 == v)).length

/-- `Tree` = `(DiGraph<HeaderInfo, bool>, HashMap<BlockHash, NodeIndex>)`:
the per-network header graph together with its hash index. -/
structure TreeInfo where
  graph : Graph
  index : HashIndex

/-- The backend oracle behind the `Node` trait (node.rs): capability flags
plus pure request/response functions for each fetch primitive. -/
structure NodeBackend where
  header_fetch_type : HeaderFetchType
  batch_header_fetch_cap : Bool
  block_hash : Nat → Except FetchError Nat
  block_header_hash : Nat → Except FetchError Header
  block_header_height : Nat → Except FetchError Header
  batch_headers : Nat → Nat → Nat → Except FetchError (List Header)

/-- `STEP_SIZE` in `Node::new_active_headers`. -/
def STEP_SIZE : Int := 2000

/-- One pass of the batch (`capabilities().batch_header_fetch == true`) branch
of the `loop` in `Node::new_active_headers`: fetch up to `STEP_SIZE` headers
ending at `query_height`, append the unknown ones, and report whether any
returned header was already in the tree's hash index. -/
def batchStep (node : NodeBackend) (tree : TreeInfo) (mfh : Nat) (qh : Int)
    (acc : List HeaderInfo) :
    Except FetchError (List HeaderInfo × Bool) :=
  let start_height : Int := max (mfh : Int) (qh - STEP_SIZE + 1)
  match node.block_hash start_height.toNat with
  | .error e => .error e
  | .ok header_hash =>
    match node.batch_headers header_hash start_height.toNat STEP_SIZE.toNat with
    | .error e => .error e
    | .ok headers =>
      -- zip heights and headers up, iterating in ascending height order
      let pairs := headers.enum
      .ok <| pairs.foldl
        (fun (st : List HeaderInfo × Bool) p =>
          if hmContains tree.index p.2.block_hash then
            (st.1, true)
          else
            (st.1 ++ [{ height := (start_height + p.1).toNat, header := p.2,
                        miner := "" }], st.2))
        (acc, false)

/-- The `loop` of `Node::new_active_headers`, walking `query_height` down
towards `min_fork_height`.  Structural recursion on an explicit fuel so that
the function evaluates; `none` marks fuel exhaustion, which `newActiveLoop_total`
below proves unreachable for the fuel used by `newActiveHeaders`.  The returned
`Nat` counts the executed loop iterations. -/
def activeLoop (node : NodeBackend) (tree : TreeInfo) (mfh : Nat) :
    Nat → Int → List HeaderInfo → Option (Except FetchError (List HeaderInfo × Nat))
  | 0, _, _ => none
  | fuel + 1, qh, acc =>
    match node.batch_header_fetch_cap with
    | true =>
      match batchStep node tree mfh qh acc with
      | .error e => some (.error e)
      | .ok (acc', already_knew_a_header) =>
        if already_knew_a_header then
          some (.ok (acc', 1))
        else
          let qh' := qh - STEP_SIZE
          if qh' < (mfh : Int) then
            some (.ok (acc', 1))
          else
            (activeLoop node tree mfh fuel qh' acc').map
              (fun r => r.map (fun p => (p.1, p.2 + 1)))
    | false =>
      match node.block_hash qh.toNat with
      | .error e => some (.error e)
      | .ok header_hash =>
        if hmContains tree.index header_hash then
          some (.ok (acc, 1))
        else
          let fetched : Except FetchError Header :=
            match node.header_fetch_type with
            | .Hash => node.block_header_hash header_hash
            | .Height => node.block_header_height qh.toNat
          match fetched with
          | .error e => some (.error e)
          | .ok header =>
            let acc' := acc ++ [{ height := qh.toNat, header := header, miner := "" }]
            let qh' := qh - 1
            if qh' < (mfh : Int) then
              some (.ok (acc', 1))
            else
              (activeLoop node tree mfh fuel qh' acc').map
                (fun r => r.map (fun p => (p.1, p.2 + 1)))

/-- `Node::new_active_headers`: select the last tip with status `active`
(erroring with `DataError` when there is none), walk the loop, and sort the
collected headers by ascending height (`sort_by_key(|h| h.height)`). -/
def newActiveHeaders (node : NodeBackend) (tips : List ChainTip)
    (tree : TreeInfo) (mfh : Nat) :
    Except FetchError (List HeaderInfo × Nat) :=
  match (tips.filter (fun t => t.status == .active)).getLast? with
  | none => .error (.DataError "No 'active' chain tip returned")
  | some active_tip =>
    match activeLoop node tree mfh (((active_tip.height : Int) - mfh).toNat + 1)
        (active_tip.height : Int) [] with
    | none => .error (.DataError "unreachable: loop fuel exhausted")
    | some (.error e) => .error e
    | some (.ok (hs, n)) =>
      .ok (hs.mergeSort (fun a b => a.height ≤ b.height), n)

/-- The inner `for i in 0..=branchlen` walk of `Node::new_nonactive_headers`
for one non-active tip, following `prev_blockhash` links.  Note the loop's
break condition tests `inactive_tip.block_hash()` — the tip's own hash — on
every iteration, exactly as the source does. -/
def nonactiveWalkGo (node : NodeBackend) (tree : TreeInfo) (tip : ChainTip) :
    List Nat → Nat → List HeaderInfo → Except FetchError (List HeaderInfo)
  | [], _, acc => .ok acc
  | i :: rest, next_header, acc =>
    if hmContains tree.index tip.block_hash then
      .ok acc
    else
      let height := wsub64 tip.height i
      match node.block_header_hash next_header with
      | .error e => .error e
      | .ok header =>
        nonactiveWalkGo node tree tip rest header.prev_blockhash
          (acc ++ [{ height := height, header := header, miner := "" }])

/-- The walk of `Node::new_nonactive_headers` for one non-active tip. -/
def nonactiveWalkTip (node : NodeBackend) (tree : TreeInfo) (tip : ChainTip) :
    Except FetchError (List HeaderInfo) :=
  nonactiveWalkGo node tree tip (List.range (tip.branchlen + 1)) tip.block_hash []

/-- `Node::new_nonactive_headers`: backends that can only fetch by height
return early; otherwise walk every tip with
`tip.height - tip.branchlen > min_fork_height` (u64 wrapping subtraction) and
status other than `active`. -/
def newNonactiveHeaders (node : NodeBackend) (tips : List ChainTip)
    (tree : TreeInfo) (mfh : Nat) : Except FetchError (List HeaderInfo) :=
  if node.header_fetch_type == .Height then
    .ok []
  else
    (tips.filter (fun t =>
        decide (wsub64 t.height t.branchlen > mfh) && !(t.status == .active))).foldlM
      (fun acc tip => do
        let hs ← nonactiveWalkTip node tree tip
        pure (acc ++ hs))
      []

/-- `Node::new_headers`: concatenate the active-chain walk's headers and the
inactive-chain walk's headers; request miner identification for the active
ones only when there are at most 20 of them, and for all inactive ones. -/
def newHeaders (node : NodeBackend) (tips : List ChainTip) (tree : TreeInfo)
    (mfh : Nat) : Except FetchError (List HeaderInfo × List Nat) := do
  let (active_new_headers, _iters) ← newActiveHeaders node tips tree mfh
  let headers_needing_miners :=
    if active_new_headers.length ≤ 20 then
      active_new_headers.map (fun h => h.header.block_hash)
    else
      []
  let nonactive_new_headers ← newNonactiveHeaders node tips tree mfh
  pure (active_new_headers ++ nonactive_new_headers,
        headers_needing_miners ++ nonactive_new_headers.map (fun h => h.header.block_hash))

/-! ### Concrete fixtures used by counterexamples and witnesses -/

/-- A by-hash, non-batch backend (the Bitcoin-Core-RPC / btcd shape) serving a
three-header stale branch 101 ← 102 ← 103 and the active tip header 203. -/
def oracleA : NodeBackend where
  header_fetch_type := .Hash
  batch_header_fetch_cap := false
  block_hash := fun h => if h = 3 then .ok 203 else .error (.Transport "no such height")
  block_header_hash := fun h =>
    if h = 103 then .ok ⟨103, 102⟩
    else if h = 102 then .ok ⟨102, 101⟩
    else if h = 101 then .ok ⟨101, 100⟩
    else if h = 203 then .ok ⟨203, 202⟩
    else .error (.Transport "unknown hash")
  block_header_height := fun _ => .error (.DataError "fetch by block height not implemented")
  batch_headers := fun _ _ _ => .error (.DataError "batch header fetch not implemented")

/-- A graph that already knows header 102 (height 2) and the active tip 203
(height 3), with the matching hash index. -/
def treeA : TreeInfo where
  graph := { nodes := [⟨2, ⟨102, 101⟩, ""⟩, ⟨3, ⟨203, 202⟩, ""⟩], edges := [] }
  index := [(102, 0), (203, 1)]

/-- Tips report: active tip at height 3 (hash 203, already known) and a
non-active fork tip at height 3 (hash 103) with branch length 2. -/
def tipsA : List ChainTip := [⟨3, 203, 0, .active⟩, ⟨3, 103, 2, .validFork⟩]

/-- A by-hash, non-batch backend whose chain ends at height 0 (hash 300). -/
def oracleC : NodeBackend where
  header_fetch_type := .Hash
  batch_header_fetch_cap := false
  block_hash := fun h => if h = 0 then .ok 300 else .error (.Transport "no such height")
  block_header_hash := fun h =>
    if h = 300 then .ok ⟨300, 299⟩ else .error (.Transport "unknown hash")
  block_header_height := fun _ => .error (.DataError "fetch by block height not implemented")
  batch_headers := fun _ _ _ => .error (.DataError "batch header fetch not implemented")

/-- The empty header graph with an empty hash index. -/
def treeEmpty : TreeInfo where
  graph := { nodes := [], edges := [] }
  index := []

/-- Tips report consisting of a single active tip at height 0. -/
def tipsC : List ChainTip := [⟨0, 300, 0, .active⟩]


/-! ### headertree.rs: the tree-strip engine -/

/-- Modelled from the spec: `HeaderInfoJson` (`{id, prev_id, height, hash,
prev_blockhash, miner, ...}`), the JSON node shape emitted by `strip_tree`;
declared in the types module of which only an older revision is in src/.
Pure header-derived scalar fields (version, merkle root, time, bits, nonce)
are omitted: no claim reads them. -/
structure HeaderInfoJson where
  id : Nat
  prev_id : Nat
  height : Nat
  hash : Nat
  prev_blockhash : Nat
  miner : String
  deriving DecidableEq, Repr

/-- `HeaderInfoJson::new(header_info, id, prev_id)`. -/
def HeaderInfoJson.new (h : HeaderInfo) (id prev_id : Nat) : HeaderInfoJson where
  id := id
  prev_id := prev_id
  height := h.height
  hash := h.header.block_hash
  prev_blockhash := h.header.prev_blockhash
  miner := h.miner

/-- `HeaderInfoJson::update_miner`. -/
def HeaderInfoJson.update_miner (h : HeaderInfoJson) (m : String) : HeaderInfoJson :=
  { h with miner := m }

/-- `sorted_interesting_heights`: heights occurring more than once (forks),
joined with the tip heights and the maximum height, as an ascending
duplicate-free list truncated to the `max_interesting_heights` largest
entries (the Rust code materialises a `BTreeSet`, then reverses, takes, and
reverses back). -/
def sortedInterestingHeights (g : Graph) (maxIH : Nat) (tipHeights : List Nat) :
    List Nat :=
  if g.nodes.length = 0 then
    []
  else
    let hs := g.nodes.map (fun n => n.height)
    let heights_with_multiple_blocks := hs.filter (fun h => hs.count h > 1)
    let max_height := hs.foldl max 0
    let interesting_sorted :=
      ((heights_with_multiple_blocks ++ tipHeights ++ [max_height]).mergeSort
        (fun a b => a ≤ b)).dedup
    (interesting_sorted.reverse.take maxIH).reverse

/-- The filter predicate of `strip_tree`: keep a header whose height `h`
satisfies `(h - x) ∈ interesting` for some `x ∈ -2..=1`, i.e. one of
`h+2, h+1, h, h-1` is interesting (`h-1` computed with the `as u64` cast
wrap of the Rust source). -/
def keepHeader (interesting : List Nat) (h : HeaderInfo) : Bool :=
  interesting.contains (h.height + 2) || interesting.contains (h.height + 1) ||
  interesting.contains h.height || interesting.contains (wsub64 h.height 1)

/-- The kept `(old_index, header)` pairs of a petgraph `filter_map`. -/
def filteredKept (g : Graph) (keep : HeaderInfo → Bool) : List (Nat × HeaderInfo) :=
  g.nodes.enum.filter (fun p => keep p.2)

/-- The compact reindexing performed by petgraph `filter_map`: an old vertex
index maps to its position among the kept vertices. -/
def renumber (kept : List (Nat × HeaderInfo)) (old : Nat) : Option Nat :=
  kept.findIdx? (fun p => p.1 == old)

/-- petgraph `filter_map` keeping all edge weights: keep the selected
vertices (compactly renumbered) and every edge both of whose endpoints
survive. -/
def Graph.filterMap (g : Graph) (keep : HeaderInfo → Bool) : Graph :=
  let kept := filteredKept g keep
  { nodes := kept.map (fun p => p.2),
    edges := g.edges.filterMap (fun e =>
      match renumber kept e.1, renumber kept e.2 with
      | some a, some b => some (a, b)
      | _, _ => none) }

/-- Outgoing neighbours of `v` in most-recently-inserted-first order
(petgraph `Neighbors` iteration order). -/
def Graph.neighborsOut (g : Graph) (v : Nat) : List Nat :=
  ((g.edges.filter (fun e => e.1 == v)).map (fun e => e.2)).reverse

/-- petgraph `Dfs`: pop the stack, skip discovered vertices, push the
popped vertex's successors; returns the visit order.  Structural recursion
on fuel; the fuel below exceeds the total number of possible stack pushes
(one per edge plus the start vertex), so it never runs out. -/
def dfsAux (g : Graph) : Nat → List Nat → List Nat → List Nat → List Nat
  | 0, _, _, acc => acc.reverse
  | _ + 1, [], _, acc => acc.reverse
  | fuel + 1, v :: stack, discovered, acc =>
    if discovered.contains v then
      dfsAux g fuel stack discovered acc
    else
      dfsAux g fuel (g.neighborsOut v ++ stack) (v :: discovered) (v :: acc)

/-- Depth-first visit order from `root`. -/
def dfsOrder (g : Graph) (root : Nat) : List Nat :=
  dfsAux g (g.edges.length + g.nodes.length + 2) [root] [] []

/-- The `while let Some(idx) = dfs.next` loop of `strip_tree`: the first
vertex of maximal height (strictly exceeding the running maximum, which
starts at `u64::default()`) seen during the DFS from `root`. -/
def dfsDeepest (g : Graph) (root : Nat) : Option Nat :=
  ((dfsOrder g root).foldl
    (fun (st : Nat × Option Nat) idx =>
      let height := (g.nodes.getD idx default).height
      if height > st.1 then (height, some idx) else st)
    (0, none)).2

/-- The root-reconnection loop of `strip_tree`: walk the (height-sorted)
roots, connecting each root to the deepest vertex found in the previously
visited subtree, then search the current root's subtree for its deepest
vertex. -/
def reconnectGo (g : Graph) : Option Nat → List Nat → Graph
  | _, [] => g
  | prev, root :: roots =>
    let g' :=
      match prev with
      | some p => { g with edges := g.edges ++ [(p, root)] }
      | none => g
    reconnectGo g' (dfsDeepest g' root) roots

/-- The roots (`externals(Incoming)`, i.e. in-degree-0 vertices in index
order) of the stripped graph, sorted by height (`sort_by_key`, stable). -/
def Graph.rootsSorted (g : Graph) : List Nat :=
  ((List.range g.nodes.length).filter (fun v => g.indeg v == 0)).mergeSort
    (fun a b => (g.nodes.getD a default).height ≤ (g.nodes.getD b default).height)

/-- The stripped (filtered, not yet reconnected) graph of `strip_tree`. -/
def stripedGraph (tree : TreeInfo) (maxIH : Nat) (tipHeights : List Nat) : Graph :=
  tree.graph.filterMap (keepHeader (sortedInterestingHeights tree.graph maxIH tipHeights))

/-- The graph state after the filtering and reconnection phases of
`strip_tree` (everything before the emission loop). -/
def stripTreeGraph (tree : TreeInfo) (maxIH : Nat) (tipHeights : List Nat) :
    Graph :=
  reconnectGo (stripedGraph tree maxIH tipHeights) none
    (stripedGraph tree maxIH tipHeights).rootsSorted

/-- The emission loop of `strip_tree`: one `HeaderInfoJson` per vertex with
`prev_id` the unique incoming neighbour, `usize::MAX` for roots; `none`
models the `panic!` branch taken when a vertex has several incoming
neighbours. -/
def emitHeaders (g : Graph) : Option (List HeaderInfoJson) :=
  (List.range g.nodes.length).mapM (fun idx =>
    let prev_nodes := ((g.edges.filter (fun e => e.2 == idx)).map (fun e => e.1)).reverse
    match prev_nodes with
    | [] => some (HeaderInfoJson.new (g.nodes.getD idx default) idx usizeMax)
    | [p] => some (HeaderInfoJson.new (g.nodes.getD idx default) idx p)
    | _ => none)

/-- `strip_tree`. -/
def stripTree (tree : TreeInfo) (maxIH : Nat) (tipHeights : List Nat) :
    Option (List HeaderInfoJson) :=
  emitHeaders (stripTreeGraph tree maxIH tipHeights)

/-- A three-vertex fork graph used by the C4 witness: a root at height 1
with two children at height 2 (in-degree of every vertex at most one). -/
def g4 : Graph where
  nodes := [⟨1, ⟨10, 9⟩, ""⟩, ⟨2, ⟨11, 10⟩, ""⟩, ⟨2, ⟨12, 10⟩, ""⟩]
  edges := [(0, 1), (0, 2)]

/-- The fork graph with its hash index. -/
def tree4 : TreeInfo where
  graph := g4
  index := [(10, 0), (11, 1), (12, 2)]

/-- The total refinement of the emission step under the in-degree invariant:
`prev_id` is the sentinel for a vertex without incoming edges and the unique
incoming neighbour otherwise (used to describe `emitHeaders`' output). -/
def emitTotal (g : Graph) (idx : Nat) : HeaderInfoJson :=
  match ((g.edges.filter (fun e => e.2 == idx)).map (fun e => e.1)).reverse with
  | [] => HeaderInfoJson.new (g.nodes.getD idx default) idx usizeMax
  | p :: _ => HeaderInfoJson.new (g.nodes.getD idx default) idx p


/-! ### main.rs / db.rs: cache updates and the header-tree store round trip -/

/-- Modelled from the spec: `TipInfoJson` (`{height, status, hash}`), the
JSON tip shape stored in `NodeDataJson.tips`; declared in the types module
of which only an older revision is in src/. -/
structure TipInfoJson where
  height : Nat
  status : String
  hash : String
  deriving DecidableEq, Repr

/-- `TipInfoJson::new(tip)`. -/
def TipInfoJson.ofChainTip (tip : ChainTip) : TipInfoJson where
  height := tip.height
  status := tip.status.toStr
  hash := toString tip.hash

/-- Modelled from the spec: `NodeDataJson` — per-node operational state
`{id, name, description, version, tips, last_changed_timestamp, reachable}`;
declared in the types module of which only an older revision is in src/.
The timestamp is carried but not advanced by the embedding (wall-clock). -/
structure NodeDataJson where
  id : Nat
  name : String
  description : String
  version : String
  tips : List TipInfoJson
  last_changed_timestamp : Nat
  reachable : Bool
  deriving DecidableEq, Repr

/-- `Fork` (types.rs): a fork point and its immediate children. -/
structure Fork where
  common : HeaderInfo
  children : List HeaderInfo
  deriving DecidableEq, Repr

/-- Modelled from the spec: the per-network `Cache`
(`{header_infos_json, node_data, forks, recent_miners}`); declared in the
types module of which only an older revision is in src/.  Hash keys of
`recent_miners` are block-hash values. -/
structure Cache where
  header_infos_json : List HeaderInfoJson
  node_data : List (Nat × NodeDataJson)
  forks : List Fork
  recent_miners : List (Nat × String)
  deriving DecidableEq, Repr

/-- `CacheUpdate` (main.rs). -/
inductive CacheUpdate where
  | headerMiner (header_info : HeaderInfo)
  | headerTree (header_infos_json : List HeaderInfoJson) (forks : List Fork)
  | nodeTips (node_id : Nat) (tips : List ChainTip)
  | nodeReachability (node_id : Nat) (reachable : Bool)
  | nodeVersion (node_id : Nat) (version : String)
  deriving Repr

/-- `HashMap<String, HeaderInfoJson>::insert` used by the `HeaderTree`
branch of `update_cache` (later entries overwrite earlier ones). -/
def hijInsert (m : List (Nat × HeaderInfoJson)) (k : Nat) (v : HeaderInfoJson) :
    List (Nat × HeaderInfoJson) :=
  if m.any (fun p => p.1 == k) then
    m.map (fun p => if p.1 == k then (k, v) else p)
  else
    m ++ [(k, v)]

/-- `BTreeMap::entry(..).and_modify(..)` over the per-node data. -/
def ndModify (m : List (Nat × NodeDataJson)) (k : Nat)
    (f : NodeDataJson → NodeDataJson) : List (Nat × NodeDataJson) :=
  m.map (fun p => if p.1 == k then (p.1, f p.2) else p)

/-- `update_cache` (main.rs), acting on the addressed network's cache entry. -/
def updateCache (cache : Cache) (update : CacheUpdate) : Cache :=
  match update with
  | .headerMiner header_info =>
    let old :=
      match cache.header_infos_json.findIdx?
          (fun h => h.hash == header_info.header.block_hash) with
      | some index =>
        match cache.header_infos_json.get? index with
        | some h =>
          cache.header_infos_json.set index (h.update_miner header_info.miner)
        | none => cache.header_infos_json
      | none => cache.header_infos_json
    let rm := cache.recent_miners ++ [(header_info.header.block_hash, header_info.miner)]
    { cache with
      header_infos_json := old,
      recent_miners := if rm.length > 5 then rm.eraseIdx 0 else rm }
  | .headerTree header_infos_json forks =>
    let new_map := header_infos_json.foldl (fun m h => hijInsert m h.hash h) []
    -- splice recent miner results into the fresh tree
    let spliced := cache.recent_miners.foldl
      (fun m p => m.map (fun q =>
        if q.1 == p.1 then (q.1, q.2.update_miner p.2) else q))
      new_map
    { cache with
      header_infos_json := spliced.map (fun p => p.2),
      forks := forks }
  | .nodeTips node_id tips =>
    let min_height :=
      match (cache.header_infos_json.map (fun h => h.height)).min? with
      | some h => h
      | none => 0
    let relevant_tips := tips.filter (fun t => t.height ≥ min_height)
    { cache with
      node_data := ndModify cache.node_data node_id
        (fun n => { n with tips := relevant_tips.map TipInfoJson.ofChainTip }) }
  | .nodeReachability node_id reachable =>
    { cache with
      node_data := ndModify cache.node_data node_id
        (fun n => { n with reachable := reachable }) }
  | .nodeVersion node_id version =>
    { cache with
      node_data := ndModify cache.node_data node_id
        (fun n => { n with version := version }) }

/-- petgraph `update_edge` with a constant weight: add the edge unless it is
already present. -/
def updateEdge (edges : List (Nat × Nat)) (a b : Nat) : List (Nat × Nat) :=
  if (a, b) ∈ edges then edges else edges ++ [(a, b)]

/-- The node-insertion pass of `load_treeinfos` (db.rs): add every header as
a vertex and index it (no duplicate check — the store load is trusted to be
duplicate-free). -/
def addHeadersToTree : List HeaderInfo → TreeInfo → TreeInfo
  | [], t => t
  | h :: rest, t =>
    addHeadersToTree rest
      { graph := { nodes := t.graph.nodes ++ [h], edges := t.graph.edges },
        index := hmInsert t.index h.header.block_hash t.graph.nodes.length }

/-- The edge-connection pass shared by `load_treeinfos` (db.rs) and
`insert_new_headers_into_tree` (main.rs): connect every header to its parent
when the parent is indexed (the current header's own lookup cannot fail, as
it was just inserted). -/
def connectHeaders (headers : List HeaderInfo) (t : TreeInfo) : TreeInfo :=
  headers.foldl
    (fun t current =>
      match hmLookup t.index current.header.block_hash with
      | none => t
      | some idx_current =>
        match hmLookup t.index current.header.prev_blockhash with
        | none => t
        | some idx_prev =>
          { t with graph := { nodes := t.graph.nodes,
                              edges := updateEdge t.graph.edges idx_prev idx_current } })
    t

/-- `load_treeinfos` (db.rs): build the header tree from the stored headers
(nodes first, then edges). -/
def loadTreeinfos (header_infos : List HeaderInfo) : TreeInfo :=
  connectHeaders header_infos
    (addHeadersToTree header_infos { graph := { nodes := [], edges := [] }, index := [] })

/-- The vertex-insertion pass of `insert_new_headers_into_tree` (main.rs):
only headers whose hash is not yet indexed are added. -/
def insertPhase : List HeaderInfo → TreeInfo × Bool → TreeInfo × Bool
  | [], st => st
  | h :: rest, (t, changed) =>
    if hmContains t.index h.header.block_hash then
      insertPhase rest (t, changed)
    else
      insertPhase rest
        ({ graph := { nodes := t.graph.nodes ++ [h], edges := t.graph.edges },
           index := hmInsert t.index h.header.block_hash t.graph.nodes.length },
         true)

/-- `insert_new_headers_into_tree` (main.rs). -/
def insertNewHeadersIntoTree (t : TreeInfo) (new_headers : List HeaderInfo) :
    TreeInfo × Bool :=
  let (t1, tree_changed) := insertPhase new_headers (t, false)
  (connectHeaders new_headers t1, tree_changed)

/-- The hash-index/vertex bijection invariant over the raw components: every
index entry points at an in-range vertex carrying that hash, and every
vertex is found (at its own position) when its hash is looked up. -/
def WellIndexedParts (nodes : List HeaderInfo) (index : HashIndex) : Prop :=
  (∀ p ∈ index, p.2 < nodes.length ∧
    (nodes.getD p.2 default).header.block_hash = p.1) ∧
  (∀ i, i < nodes.length →
    hmLookup index ((nodes.getD i default).header.block_hash) = some i)

/-- The bijection invariant of a header tree. -/
def WellIndexed (t : TreeInfo) : Prop :=
  WellIndexedParts t.graph.nodes t.index

instance (nodes : List HeaderInfo) (index : HashIndex) :
    Decidable (WellIndexedParts nodes index) := by
  unfold WellIndexedParts
  infer_instance

/-! ### rss.rs: the lagging-nodes feed -/

/-- `THREASHOLD_NODE_LAGGING` (rss.rs, spelling as in the source). -/
def THREASHOLD_NODE_LAGGING : Nat := 3

/-- An RSS `Item` (rss.rs). -/
structure Item where
  title : String
  description : String
  guid : String
  deriving DecidableEq, Repr

/-- The per-node active-tip height used by `lagging_nodes_response`: the
last tip with status "active", defaulting to the dummy height-0 tip. -/
def activeTipHeight (node : NodeDataJson) : Nat :=
  (((node.tips.filter (fun tip => tip.status == "active")).getLast?).getD
    { height := 0, status := "active", hash := "dummy" }).height

/-- `nodes_with_active_height` of `lagging_nodes_response`. -/
def nodesWithActiveHeight (cache : Cache) : List (NodeDataJson × Nat) :=
  cache.node_data.map (fun p => (p.2, activeTipHeight p.2))

/-- `Item::lagging_node_item`. -/
def laggingNodeItem (node : NodeDataJson) (height : Nat) : Item where
  title := "Node '" ++ node.name ++ "' is lagging behind"
  description := "The node's active tip is on height " ++ toString height ++
    ", while other nodes consider a block with a height at least " ++
    toString THREASHOLD_NODE_LAGGING ++
    " blocks higher their active tip. The node might still be synchronizing with the network or stuck."
  guid := "lagging-node-" ++ node.name ++ "-on-" ++ toString height

/-- The item list of `lagging_nodes_response`: for networks with more than
one node, one item per node whose active height is more than the lagging
threshold below the fleet maximum. -/
def laggingNodesItems (cache : Cache) : List Item :=
  if cache.node_data.length > 1 then
    let nwah := nodesWithActiveHeight cache
    let max_height := ((nwah.map (fun p => p.2)).max?).getD 0
    (nwah.filter (fun p => p.2 + THREASHOLD_NODE_LAGGING < max_height)).map
      (fun p => laggingNodeItem p.1 p.2)
  else
    []

/-! ### api.rs / main.rs: the server-sent-events change stream -/

/-- Modelled from the spec: the `DataChanged` JSON payload
(`{network_id: u32}`); declared in the types module of which only an older
revision is in src/. -/
structure DataChanged where
  network_id : Nat
  deriving DecidableEq, Repr

/-- A server-sent event: name and JSON payload. -/
structure SseEvent where
  event : String
  data : DataChanged
  deriving DecidableEq, Repr

/-- `api::data_changed_sse`. -/
def data_changed_sse (network_id : Nat) : SseEvent where
  event := "tip_changed"
  data := { network_id := network_id }

/-- The per-message mapping of the `/api/changes` stream (main.rs): forward
the broadcast network id; on a subscriber-stream error emit `u32::MAX` as
the in-band catch-up signal. -/
def changeSseHandler (d : Except String Nat) : SseEvent :=
  match d with
  | .ok d => data_changed_sse d
  | .error _ => data_changed_sse u32Max

/-! ### Fixtures for the cache, tree and RSS claims -/

/-- The empty cache of a freshly-populated network. -/
def cache5 : Cache where
  header_infos_json := []
  node_data := []
  forks := []
  recent_miners := []

/-- A node-data record with a single active tip at the given height. -/
def nodeAt (id : Nat) (name : String) (h : Nat) : NodeDataJson where
  id := id
  name := name
  description := ""
  version := ""
  tips := [{ height := h, status := "active", hash := "h" }]
  last_changed_timestamp := 0
  reachable := true

/-- Two-node cache with active heights 10 and 7 (trailing node exactly 3
blocks behind). -/
def cache7 : Cache where
  header_infos_json := []
  node_data := [(0, nodeAt 0 "a" 10), (1, nodeAt 1 "b" 7)]
  forks := []
  recent_miners := []

/-- Two-node cache with active heights 10 and 6 (trailing node 4 blocks
behind). -/
def cache7b : Cache where
  header_infos_json := []
  node_data := [(0, nodeAt 0 "a" 10), (1, nodeAt 1 "b" 6)]
  forks := []
  recent_miners := []

/-- Three stored headers forming a chain, pairwise distinct hashes. -/
def dbHeaders : List HeaderInfo :=
  [⟨1, ⟨10, 9⟩, ""⟩, ⟨2, ⟨11, 10⟩, ""⟩, ⟨3, ⟨12, 11⟩, ""⟩]

-- THEOREMS

/-! ### Helper lemmas about the differential-discovery walks -/

theorem nonactiveWalkGo_skip (node : NodeBackend) (tree : TreeInfo) (tip : ChainTip)
    (i : Nat) (rest : List Nat) (nxt : Nat) (acc : List HeaderInfo)
    (h : hmContains tree.index tip.block_hash = true) :
    nonactiveWalkGo node tree tip (i :: rest) nxt acc = .ok acc := by
  simp [nonactiveWalkGo, h]

theorem nonactiveWalkGo_full_length (node : NodeBackend) (tree : TreeInfo)
    (tip : ChainTip) (h : hmContains tree.index tip.block_hash = false) :
    ∀ (is : List Nat) (nxt : Nat) (acc l : List HeaderInfo),
      nonactiveWalkGo node tree tip is nxt acc = .ok l →
      l.length = acc.length + is.length := by
  intro is
  induction is with
  | nil =>
    intro nxt acc l hgo
    simp [nonactiveWalkGo] at hgo
    simp [← hgo]
  | cons i rest ih =>
    intro nxt acc l hgo
    simp only [nonactiveWalkGo, h, Bool.false_eq_true, if_false] at hgo
    cases hh : node.block_header_hash nxt with
    | error e => rw [hh] at hgo; simp at hgo
    | ok header =>
      rw [hh] at hgo
      have := ih _ _ _ hgo
      simp only [List.length_append, List.length_cons, List.length_nil] at this ⊢
      omega

theorem nonactiveWalkGo_length_le (node : NodeBackend) (tree : TreeInfo)
    (tip : ChainTip) :
    ∀ (is : List Nat) (nxt : Nat) (acc l : List HeaderInfo),
      nonactiveWalkGo node tree tip is nxt acc = .ok l →
      l.length ≤ acc.length + is.length := by
  intro is
  induction is with
  | nil =>
    intro nxt acc l hgo
    simp [nonactiveWalkGo] at hgo
    simp [← hgo]
  | cons i rest ih =>
    intro nxt acc l hgo
    simp only [nonactiveWalkGo] at hgo
    split at hgo
    · rw [show acc = l by simpa using hgo]
      simp
    · cases hh : node.block_header_hash nxt with
      | error e => rw [hh] at hgo; simp at hgo
      | ok header =>
        rw [hh] at hgo
        have := ih _ _ _ hgo
        simp only [List.length_append, List.length_cons, List.length_nil] at this ⊢
        omega

theorem activeLoop_total (node : NodeBackend) (tree : TreeInfo) (mfh : Nat) :
    ∀ (fuel : Nat) (qh : Int) (acc : List HeaderInfo),
      (qh - (mfh : Int)).toNat < fuel →
      activeLoop node tree mfh fuel qh acc ≠ none := by
  intro fuel
  induction fuel with
  | zero => intro qh acc hlt; omega
  | succ n ih =>
    intro qh acc hlt
    cases hb : node.batch_header_fetch_cap with
    | true =>
      simp only [activeLoop, hb]
      cases hbs : batchStep node tree mfh qh acc with
      | error e => simp
      | ok p =>
        obtain ⟨acc', known⟩ := p
        cases known with
        | true => simp
        | false =>
          simp only [Bool.false_eq_true, if_false]
          by_cases hq : qh - STEP_SIZE < (mfh : Int)
          · simp [hq]
          · simp only [hq, if_false]
            intro hmap
            refine ih (qh - STEP_SIZE) acc' ?_ (Option.map_eq_none'.mp hmap)
            simp only [STEP_SIZE] at hq ⊢
            omega
    | false =>
      simp only [activeLoop, hb]
      cases hbh : node.block_hash qh.toNat with
      | error e => simp
      | ok header_hash =>
        by_cases hc : hmContains tree.index header_hash = true
        · simp [hc]
        · simp only [Bool.not_eq_true] at hc
          simp only [hc, Bool.false_eq_true, if_false]
          cases hfe : (match node.header_fetch_type with
              | .Hash => node.block_header_hash header_hash
              | .Height => node.block_header_height qh.toNat) with
          | error e => simp
          | ok header =>
            by_cases hq : qh - 1 < (mfh : Int)
            · simp [hq]
            · simp only [hq, if_false]
              intro hmap
              refine ih (qh - 1) _ ?_ (Option.map_eq_none'.mp hmap)
              omega

theorem activeLoop_iters_le (node : NodeBackend) (tree : TreeInfo) (mfh : Nat) :
    ∀ (fuel : Nat) (qh : Int) (acc l : List HeaderInfo) (n : Nat),
      activeLoop node tree mfh fuel qh acc = some (.ok (l, n)) →
      n ≤ (qh - (mfh : Int)).toNat /
            (if node.batch_header_fetch_cap then 2000 else 1) + 1 := by
  intro fuel
  induction fuel with
  | zero => intro qh acc l n h; simp [activeLoop] at h
  | succ fl ih =>
    intro qh acc l n h
    cases hb : node.batch_header_fetch_cap with
    | true =>
      simp only [activeLoop, hb] at h
      simp only [hb, if_pos trivial]
      cases hbs : batchStep node tree mfh qh acc with
      | error e => rw [hbs] at h; simp at h
      | ok p =>
        obtain ⟨acc', known⟩ := p
        rw [hbs] at h
        cases known with
        | true =>
          simp at h
          obtain ⟨-, hn⟩ := h
          omega
        | false =>
          simp only [Bool.false_eq_true, if_false] at h
          by_cases hq : qh - STEP_SIZE < (mfh : Int)
          · simp only [if_pos hq] at h
            simp at h
            obtain ⟨-, hn⟩ := h
            omega
          · simp only [if_neg hq] at h
            cases hrec : activeLoop node tree mfh fl (qh - STEP_SIZE) acc' with
            | none => rw [hrec] at h; simp at h
            | some r =>
              rw [hrec] at h
              cases r with
              | error e => simp [Except.map] at h
              | ok p' =>
                obtain ⟨l', n'⟩ := p'
                simp only [Option.map_some', Except.map, Option.some.injEq,
                  Except.ok.injEq, Prod.mk.injEq] at h
                obtain ⟨hl, hn⟩ := h
                have hbound := ih (qh - STEP_SIZE) acc' l' n' hrec
                rw [hb] at hbound
                simp only [if_pos trivial] at hbound
                simp only [STEP_SIZE] at hq hbound
                have h2000 : (2000 : Nat) ≤ (qh - (mfh : Int)).toNat := by omega
                have hdiv := Nat.div_eq_sub_div (by omega : (0:Nat) < 2000) h2000
                have hsub : (qh - (mfh : Int)).toNat - 2000 =
                    (qh - 2000 - (mfh : Int)).toNat := by omega
                rw [hsub] at hdiv
                omega
    | false =>
      simp only [activeLoop, hb] at h
      simp only [hb, Bool.false_eq_true, if_false, Nat.div_one]
      cases hbh : node.block_hash qh.toNat with
      | error e => rw [hbh] at h; simp at h
      | ok header_hash =>
        rw [hbh] at h
        by_cases hc : hmContains tree.index header_hash = true
        · simp [hc] at h
          obtain ⟨-, hn⟩ := h
          omega
        · simp only [Bool.not_eq_true] at hc
          simp only [hc, Bool.false_eq_true, if_false] at h
          cases hfe : (match node.header_fetch_type with
              | .Hash => node.block_header_hash header_hash
              | .Height => node.block_header_height qh.toNat) with
          | error e => rw [hfe] at h; simp at h
          | ok header =>
            rw [hfe] at h
            by_cases hq : qh - 1 < (mfh : Int)
            · simp [hq] at h
              obtain ⟨-, hn⟩ := h
              omega
            · simp only [hq, if_neg, reduceIte] at h
              cases hrec : activeLoop node tree mfh fl (qh - 1)
                  (acc ++ [{ height := qh.toNat, header := header, miner := "" }]) with
              | none => rw [hrec] at h; simp at h
              | some r =>
                rw [hrec] at h
                cases r with
                | error e => simp [Except.map] at h
                | ok p' =>
                  obtain ⟨l', n'⟩ := p'
                  simp only [Option.map_some', Except.map, Option.some.injEq,
                    Except.ok.injEq, Prod.mk.injEq] at h
                  obtain ⟨hl, hn⟩ := h
                  have hbound := ih (qh - 1) _ l' n' hrec
                  rw [hb] at hbound
                  simp only [Bool.false_eq_true, if_false, Nat.div_one] at hbound
                  omega

theorem sorted_by_height_mergeSort (hs : List HeaderInfo) :
    List.Sorted (fun a b => a.height ≤ b.height)
      (hs.mergeSort (fun a b => a.height ≤ b.height)) := by
  have := @List.sorted_mergeSort HeaderInfo
    (fun a b : HeaderInfo => decide (a.height ≤ b.height))
    (fun a b c h1 h2 => by
      simp only [decide_eq_true_eq] at h1 h2 ⊢
      omega)
    (fun a b => by simp [Nat.le_total]) hs
  simpa [List.Sorted] using this

/-! ### Claim theorems for the node layer -/

/-- Claim C8 (confirmed): whenever the tips report contains no tip with
status `active` (in particular a report with zero entries), `new_headers`
returns the `DataError` kind, before any backend fetch and without touching
any state (the embedding is pure; the error is produced ahead of every
oracle call). -/
theorem c8_no_active_tip (node : NodeBackend) (tips : List ChainTip)
    (tree : TreeInfo) (mfh : Nat)
    (h : tips.filter (fun t => t.status == .active) = []) :
    newHeaders node tips tree mfh =
      .error (.DataError "No 'active' chain tip returned") := by
  simp only [newHeaders, newActiveHeaders, h, List.getLast?_nil]
  rfl

theorem c8_witness :
    ([] : List ChainTip).filter (fun t => t.status == .active) = [] ∧
    newHeaders oracleA [] treeA 0 =
      .error (.DataError "No 'active' chain tip returned") :=
  ⟨rfl, c8_no_active_tip oracleA [] treeA 0 rfl⟩

unseal List.mergeSort List.merge in
/-- Claim C1 (corrected), counterexample: with backend `oracleA`, tips
`tipsA` and graph `treeA`, `new_headers` returns headers at heights
`[3, 2, 1]` — the inactive-chain walk appends its headers in descending
height order after the (sorted) active part, so the full returned list is
not sorted by ascending height. -/
theorem c1_counterexample :
    (newHeaders oracleA tipsA treeA 0).toOption.map
        (fun p => p.1.map HeaderInfo.height) = some [3, 2, 1] ∧
    ¬ List.Sorted (fun a b : Nat => a ≤ b) [3, 2, 1] :=
  ⟨by decide, by decide⟩

/-- Claim C1 (corrected), amended: only the active-chain component of
`new_headers` is sorted by ascending height (`sort_by_key` at the end of
`new_active_headers`); the full result is that sorted component followed by
the inactive-chain walk's headers, which are appended per tip in descending
height order, so the concatenation need not be sorted. -/
theorem c1_active_sorted (node : NodeBackend) (tips : List ChainTip)
    (tree : TreeInfo) (mfh : Nat) (l : List HeaderInfo) (n : Nat)
    (h : newActiveHeaders node tips tree mfh = .ok (l, n)) :
    List.Sorted (fun a b => a.height ≤ b.height) l ∧
    ∀ lfull m, newHeaders node tips tree mfh = .ok (lfull, m) →
      ∃ rest, lfull = l ++ rest := by
  constructor
  · cases hget : (tips.filter (fun t => t.status == .active)).getLast? with
    | none => simp only [newActiveHeaders, hget] at h; simp at h
    | some at_ =>
      simp only [newActiveHeaders, hget] at h
      cases hloop : activeLoop node tree mfh
          (((at_.height : Int) - mfh).toNat + 1) (at_.height : Int) [] with
      | none => rw [hloop] at h; simp at h
      | some r =>
        rw [hloop] at h
        cases r with
        | error e => simp at h
        | ok p =>
          obtain ⟨hs, n'⟩ := p
          simp only [Except.ok.injEq, Prod.mk.injEq] at h
          rw [← h.1]
          exact sorted_by_height_mergeSort hs
  · intro lfull m hfull
    rw [newHeaders] at hfull
    simp only [h, Except.bind, bind, pure] at hfull
    cases hna : newNonactiveHeaders node tips tree mfh with
    | error e => rw [hna] at hfull; simp [Except.pure] at hfull
    | ok na =>
      rw [hna] at hfull
      simp only [Except.pure, Except.ok.injEq, Prod.mk.injEq] at hfull
      exact ⟨na, hfull.1.symm⟩

unseal List.mergeSort List.merge in
theorem c1_witness :
    newActiveHeaders oracleA tipsA treeA 0 = .ok ([], 1) ∧
    (List.Sorted (fun a b : HeaderInfo => a.height ≤ b.height) [] ∧
      ∀ lfull m, newHeaders oracleA tipsA treeA 0 = .ok (lfull, m) →
        ∃ rest, lfull = [] ++ rest) :=
  ⟨by decide, c1_active_sorted oracleA tipsA treeA 0 [] 1 (by decide)⟩

/-- Claim C2 (corrected), counterexample: with graph `treeA` already
containing hash 102, the inactive walk for tip 103 (branchlen 2) fetches and
returns hashes `[103, 102, 101]` — including 102, which is already present in
the graph's hash index — because the loop's break condition re-tests the
tip's hash instead of the hash currently being visited. -/
theorem c2_counterexample :
    (newNonactiveHeaders oracleA tipsA treeA 0).toOption.map
        (fun l => l.map (fun h => h.header.block_hash)) = some [103, 102, 101] ∧
    hmContains treeA.index 102 = true :=
  ⟨by decide, by decide⟩

/-- Claim C2 (corrected), amended: for each qualifying non-active tip the
walk tests the tip's own hash (not the hash currently being visited) against
the graph index on every iteration: if the tip hash is already in the graph
the walk contributes nothing; otherwise it fetches exactly `branchlen + 1`
headers along `prev_blockhash` links regardless of whether the visited
hashes are already in the graph. -/
theorem c2_tip_gate (node : NodeBackend) (tree : TreeInfo) (tip : ChainTip) :
    (hmContains tree.index tip.block_hash = true →
      nonactiveWalkTip node tree tip = .ok []) ∧
    (hmContains tree.index tip.block_hash = false →
      ∀ l, nonactiveWalkTip node tree tip = .ok l →
        l.length = tip.branchlen + 1) := by
  constructor
  · intro h
    have hne : ∃ i rest, List.range (tip.branchlen + 1) = i :: rest := by
      cases hr : List.range (tip.branchlen + 1) with
      | nil =>
        have := List.length_range (tip.branchlen + 1)
        rw [hr] at this
        simp at this
      | cons a b => exact ⟨a, b, rfl⟩
    obtain ⟨i, rest, hr⟩ := hne
    rw [nonactiveWalkTip, hr]
    exact nonactiveWalkGo_skip node tree tip i rest _ _ h
  · intro h l hl
    have := nonactiveWalkGo_full_length node tree tip h _ _ _ _ hl
    simpa using this

theorem c2_witness :
    hmContains treeA.index (ChainTip.block_hash ⟨3, 103, 2, .validFork⟩) = false ∧
    ∀ l, nonactiveWalkTip oracleA treeA ⟨3, 103, 2, .validFork⟩ = .ok l →
      l.length = 2 + 1 :=
  ⟨by decide, (c2_tip_gate oracleA treeA ⟨3, 103, 2, .validFork⟩).2 (by decide)⟩

unseal List.mergeSort List.merge in
/-- Claim C3 (corrected), counterexample: with the active tip at height 0
and `min_fork_height = 1` (tip strictly below it), `new_headers` on backend
`oracleC` against the empty graph still fetches and returns one header (the
tip itself) — it is neither fetch-free nor empty. -/
theorem c3_counterexample :
    ((tipsC.filter (fun t => t.status == .active)).getLast?).map ChainTip.height =
        some 0 ∧
    (0 : Nat) < 1 ∧
    (newHeaders oracleC tipsC treeEmpty 1).toOption.map (fun p => p.1.length) =
        some 1 :=
  ⟨by decide, by decide, by decide⟩

/-- Claim C3 (corrected), amended: when the active tip's height is strictly
below `min_fork_height`, the active-chain walk still executes exactly one
loop iteration (the loop is do-while shaped); with a non-batch backend that
iteration fetches at most the tip's own header, so `new_active_headers`
returns at most one header (empty exactly when the tip hash is already in
the graph) rather than always nothing. -/
theorem c3_below_min_fork (node : NodeBackend) (tips : List ChainTip)
    (tree : TreeInfo) (mfh : Nat) (at_ : ChainTip)
    (hget : (tips.filter (fun t => t.status == .active)).getLast? = some at_)
    (hlt : at_.height < mfh) :
    ∀ l n, newActiveHeaders node tips tree mfh = .ok (l, n) →
      n = 1 ∧ (node.batch_header_fetch_cap = false → l.length ≤ 1) := by
  intro l n h
  simp only [newActiveHeaders, hget] at h
  have hfuel : (((at_.height : Int) - mfh).toNat + 1) = 1 := by omega
  rw [hfuel] at h
  cases hb : node.batch_header_fetch_cap with
  | true =>
    simp only [activeLoop, hb] at h
    cases hbs : batchStep node tree mfh (at_.height : Int) [] with
    | error e => rw [hbs] at h; simp at h
    | ok p =>
      obtain ⟨acc', known⟩ := p
      rw [hbs] at h
      cases known with
      | true =>
        simp only [if_pos trivial] at h
        simp only [Except.ok.injEq, Prod.mk.injEq] at h
        exact ⟨h.2.symm, fun hfalse => by simp at hfalse⟩
      | false =>
        have hq : (at_.height : Int) - STEP_SIZE < (mfh : Int) := by
          simp only [STEP_SIZE]; omega
        simp only [Bool.false_eq_true, if_false, if_pos hq] at h
        simp only [Except.ok.injEq, Prod.mk.injEq] at h
        exact ⟨h.2.symm, fun hfalse => by simp at hfalse⟩
  | false =>
    simp only [activeLoop, hb] at h
    cases hbh : node.block_hash (at_.height : Int).toNat with
    | error e => rw [hbh] at h; simp at h
    | ok header_hash =>
      rw [hbh] at h
      by_cases hc : hmContains tree.index header_hash = true
      · simp only [hc, if_pos trivial] at h
        simp only [Except.ok.injEq, Prod.mk.injEq] at h
        refine ⟨h.2.symm, fun _ => ?_⟩
        rw [← h.1]
        simp
      · simp only [Bool.not_eq_true] at hc
        simp only [hc, Bool.false_eq_true, if_false] at h
        cases hfe : (match node.header_fetch_type with
            | .Hash => node.block_header_hash header_hash
            | .Height => node.block_header_height (at_.height : Int).toNat) with
        | error e => rw [hfe] at h; simp at h
        | ok header =>
          rw [hfe] at h
          have hq : (at_.height : Int) - 1 < (mfh : Int) := by omega
          simp only [if_pos hq] at h
          simp only [Except.ok.injEq, Prod.mk.injEq] at h
          refine ⟨h.2.symm, fun _ => ?_⟩
          rw [← h.1]
          have hperm := List.mergeSort_perm
            ([{ height := ((at_.height : Int)).toNat, header := header, miner := "" }] :
              List HeaderInfo) (fun a b => a.height ≤ b.height)
          simp [hperm.length_eq]

unseal List.mergeSort List.merge in
theorem c3_witness :
    ((tipsC.filter (fun t => t.status == .active)).getLast? =
        some ⟨0, 300, 0, .active⟩) ∧
    (0 : Nat) < 1 ∧
    (1 = 1 ∧ (oracleC.batch_header_fetch_cap = false →
      ([⟨0, ⟨300, 299⟩, ""⟩] : List HeaderInfo).length ≤ 1)) :=
  ⟨by decide, by decide,
    c3_below_min_fork oracleC tipsC treeEmpty 1 ⟨0, 300, 0, .active⟩
      (by decide) (by decide) [⟨0, ⟨300, 299⟩, ""⟩] 1 (by decide)⟩

/-- Claim C10 (confirmed): for every tips report containing an active tip,
`new_headers` terminates.  The active-chain loop completes within
`(tip.height - min_fork_height) + 1` fuel (query_height strictly decreases
each iteration, by 2000 in batch mode and by 1 otherwise, until it falls
below `min_fork_height` or a break fires), so its iteration count is at most
`(tip.height - min_fork_height) / step + 1`; and each inactive-tip walk
performs at most `branchlen + 1` iterations. -/
theorem c10_walks_terminate (node : NodeBackend) (tips : List ChainTip)
    (tree : TreeInfo) (mfh : Nat) (at_ : ChainTip)
    (hget : (tips.filter (fun t => t.status == .active)).getLast? = some at_) :
    (activeLoop node tree mfh (((at_.height : Int) - mfh).toNat + 1)
        (at_.height : Int) [] ≠ none) ∧
    (∀ l n, newActiveHeaders node tips tree mfh = .ok (l, n) →
      n ≤ ((at_.height : Int) - (mfh : Int)).toNat /
            (if node.batch_header_fetch_cap then 2000 else 1) + 1) ∧
    (∀ tip l, nonactiveWalkTip node tree tip = .ok l →
      l.length ≤ tip.branchlen + 1) := by
  refine ⟨?_, ?_, ?_⟩
  · exact activeLoop_total node tree mfh _ _ [] (by omega)
  · intro l n h
    simp only [newActiveHeaders, hget] at h
    cases hloop : activeLoop node tree mfh
        (((at_.height : Int) - mfh).toNat + 1) (at_.height : Int) [] with
    | none => rw [hloop] at h; simp at h
    | some r =>
      rw [hloop] at h
      cases r with
      | error e => simp at h
      | ok p =>
        obtain ⟨hs, n'⟩ := p
        simp only [Except.ok.injEq, Prod.mk.injEq] at h
        rw [← h.2]
        exact activeLoop_iters_le node tree mfh _ _ [] hs n' hloop
  · intro tip l hl
    have := nonactiveWalkGo_length_le node tree tip _ _ _ _ hl
    simpa using this

theorem c10_witness :
    ((tipsA.filter (fun t => t.status == .active)).getLast? =
        some ⟨3, 203, 0, .active⟩) ∧
    ((activeLoop oracleA treeA 0 ((((3 : Nat) : Int) - (0 : Nat)).toNat + 1)
        ((3 : Nat) : Int) [] ≠ none) ∧
      (∀ l n, newActiveHeaders oracleA tipsA treeA 0 = .ok (l, n) →
        n ≤ (((3 : Nat) : Int) - ((0 : Nat) : Int)).toNat /
              (if oracleA.batch_header_fetch_cap then 2000 else 1) + 1) ∧
      (∀ tip l, nonactiveWalkTip oracleA treeA tip = .ok l →
        l.length ≤ tip.branchlen + 1)) :=
  ⟨by decide, c10_walks_terminate oracleA tipsA treeA 0 ⟨3, 203, 0, .active⟩ (by decide)⟩

/-! ### Helper lemmas for the tree-strip engine -/

theorem findIdx?_spec {α : Type} (p : α → Bool) (d : α) :
    ∀ (l : List α) (i j : Nat), List.findIdx? p l i = some j →
      i ≤ j ∧ j - i < l.length ∧ p (l.getD (j - i) d) = true := by
  intro l
  induction l with
  | nil => intro i j h; simp [List.findIdx?] at h
  | cons x xs ih =>
    intro i j h
    rw [List.findIdx?_cons] at h
    by_cases hp : p x = true
    · rw [if_pos hp] at h
      simp only [Option.some.injEq] at h
      subst h
      simp [hp]
    · rw [if_neg hp] at h
      obtain ⟨h1, h2, h3⟩ := ih (i + 1) j h
      refine ⟨by omega, by simp; omega, ?_⟩
      have : j - i = (j - (i + 1)) + 1 := by omega
      rw [this]
      simpa using h3

theorem renumber_spec (kept : List (Nat × HeaderInfo)) (old j : Nat)
    (h : renumber kept old = some j) :
    j < kept.length ∧ (kept.getD j (0, default)).1 = old := by
  obtain ⟨h1, h2, h3⟩ :=
    findIdx?_spec (fun p : Nat × HeaderInfo => p.1 == old) (0, default) kept 0 j h
  simp only [Nat.sub_zero] at h2 h3
  exact ⟨h2, by simpa using h3⟩

theorem filterMap_nodes_length (g : Graph) (keep : HeaderInfo → Bool) :
    (g.filterMap keep).nodes.length = (filteredKept g keep).length := by
  simp [Graph.filterMap]

theorem filterMap_edges_mem (g : Graph) (keep : HeaderInfo → Bool)
    (e : Nat × Nat) (he : e ∈ (g.filterMap keep).edges) :
    e.1 < (filteredKept g keep).length ∧ e.2 < (filteredKept g keep).length := by
  simp only [Graph.filterMap, List.mem_filterMap] at he
  obtain ⟨e0, -, hf⟩ := he
  cases hr1 : renumber (filteredKept g keep) e0.1 with
  | none => rw [hr1] at hf; simp at hf
  | some a =>
    cases hr2 : renumber (filteredKept g keep) e0.2 with
    | none => rw [hr1, hr2] at hf; simp at hf
    | some b =>
      rw [hr1, hr2] at hf
      simp only [Option.some.injEq] at hf
      subst hf
      exact ⟨(renumber_spec _ _ _ hr1).1, (renumber_spec _ _ _ hr2).1⟩

theorem filteredKept_fst_lt (g : Graph) (keep : HeaderInfo → Bool)
    (p : Nat × HeaderInfo) (hp : p ∈ filteredKept g keep) :
    p.1 < g.nodes.length := by
  simp only [filteredKept, List.mem_filter] at hp
  exact List.fst_lt_of_mem_enum hp.1

theorem filter_filterMap_target_count {l : List (Nat × Nat)}
    {f : Nat × Nat → Option (Nat × Nat)} {j t0 : Nat}
    (hf : ∀ e e', f e = some e' → e'.2 = j → e.2 = t0) :
    ((l.filterMap f).filter (fun e => e.2 == j)).length ≤
      (l.filter (fun e => e.2 == t0)).length := by
  induction l with
  | nil => simp
  | cons e l ih =>
    rw [List.filterMap_cons]
    cases hfe : f e with
    | none =>
      rw [List.filter_cons]
      refine Nat.le_trans ih ?_
      split
      · simp
      · simp
    | some e' =>
      rw [List.filter_cons, List.filter_cons]
      by_cases hj : e'.2 = j
      · have ht : e.2 = t0 := hf e e' hfe hj
        simp only [hj, ht, beq_self_eq_true, if_pos trivial, List.length_cons]
        omega
      · rw [if_neg (by simpa using hj)]
        refine Nat.le_trans ih ?_
        split
        · simp
        · simp

theorem indeg_filterMap_le (g : Graph) (keep : HeaderInfo → Bool) (j : Nat)
    (hg : ∀ v, v < g.nodes.length → g.indeg v ≤ 1) :
    (g.filterMap keep).indeg j ≤ 1 := by
  by_cases hj : j < (filteredKept g keep).length
  · set t0 := ((filteredKept g keep).getD j (0, default)).1 with ht0
    have hcount : (g.filterMap keep).indeg j ≤ g.indeg t0 := by
      apply filter_filterMap_target_count
      intro e e' hfe hje
      cases hr1 : renumber (filteredKept g keep) e.1 with
      | none => simp only [Graph.filterMap] at hfe; rw [hr1] at hfe; simp at hfe
      | some a =>
        cases hr2 : renumber (filteredKept g keep) e.2 with
        | none => simp only [Graph.filterMap] at hfe; rw [hr1, hr2] at hfe; simp at hfe
        | some b =>
          simp only [Graph.filterMap] at hfe
          rw [hr1, hr2] at hfe
          simp only [Option.some.injEq] at hfe
          have hbj : b = j := by rw [← hje, ← hfe]
          subst hbj
          exact ((renumber_spec _ _ _ hr2).2).symm ▸ rfl
    refine Nat.le_trans hcount (hg t0 ?_)
    have hmem : (filteredKept g keep).getD j (0, default) ∈ filteredKept g keep := by
      rw [List.getD_eq_getElem _ _ hj]
      exact List.getElem_mem hj
    exact filteredKept_fst_lt g keep _ hmem
  · have : (g.filterMap keep).indeg j = 0 := by
      simp only [Graph.indeg, List.length_eq_zero]
      rw [List.filter_eq_nil_iff]
      intro e he
      have := (filterMap_edges_mem g keep e he).2
      simp only [beq_iff_eq]
      omega
    omega

theorem indeg_append_edge (nodes : List HeaderInfo) (edges : List (Nat × Nat))
    (p r v : Nat) :
    Graph.indeg { nodes := nodes, edges := edges ++ [(p, r)] } v =
      Graph.indeg { nodes := nodes, edges := edges } v +
        (if r = v then 1 else 0) := by
  simp only [Graph.indeg, List.filter_append, List.length_append]
  congr 1
  by_cases h : r = v
  · simp [h]
  · simp [h]

theorem reconnectGo_nodes (g : Graph) (prev : Option Nat) (roots : List Nat) :
    (reconnectGo g prev roots).nodes = g.nodes := by
  induction roots generalizing g prev with
  | nil => rfl
  | cons root roots ih =>
    cases prev with
    | none => simpa [reconnectGo] using ih _ _
    | some p => simpa [reconnectGo] using ih _ _

theorem reconnectGo_indeg (roots : List Nat) :
    ∀ (g : Graph) (prev : Option Nat), roots.Nodup →
      ∀ v, (reconnectGo g prev roots).indeg v ≤
        g.indeg v + (if v ∈ roots then 1 else 0) := by
  induction roots with
  | nil => intro g prev _ v; simp [reconnectGo]
  | cons root roots ih =>
    intro g prev hnd v
    have hnd' : roots.Nodup := hnd.of_cons
    have hroot : root ∉ roots := by
      have := List.nodup_cons.mp hnd
      exact this.1
    cases prev with
    | none =>
      have hrec := ih g (dfsDeepest g root) hnd' v
      simp only [reconnectGo]
      by_cases hv : v ∈ roots
      · simp only [hv, if_pos trivial] at hrec
        have : v ∈ root :: roots := List.mem_cons_of_mem _ hv
        simp only [this, if_pos trivial]
        exact hrec
      · simp only [hv, Bool.false_eq_true, if_neg, if_false] at hrec
        refine Nat.le_trans hrec ?_
        split
        · omega
        · omega
    | some p =>
      have hrec := ih { g with edges := g.edges ++ [(p, root)] }
        (dfsDeepest { g with edges := g.edges ++ [(p, root)] } root) hnd' v
      simp only [reconnectGo]
      have hind : Graph.indeg { g with edges := g.edges ++ [(p, root)] } v =
          g.indeg v + (if root = v then 1 else 0) := by
        have := indeg_append_edge g.nodes g.edges p root v
        simpa using this
      rw [hind] at hrec
      by_cases hveq : root = v
      · subst hveq
        have : root ∉ roots := hroot
        simp only [this, if_neg, if_false] at hrec
        refine Nat.le_trans hrec ?_
        simp
      · simp only [hveq, if_neg, if_false] at hrec
        refine Nat.le_trans hrec ?_
        by_cases hv : v ∈ roots
        · have : v ∈ root :: roots := List.mem_cons_of_mem _ hv
          simp [hv, this]
        · have : v ∉ root :: roots := by
            intro hc
            rcases List.mem_cons.mp hc with h1 | h2
            · exact hveq h1.symm
            · exact hv h2
          simp [hv, this]

theorem rootsSorted_nodup (g : Graph) : g.rootsSorted.Nodup := by
  have hperm := List.mergeSort_perm
    ((List.range g.nodes.length).filter (fun v => g.indeg v == 0))
    (fun a b => (g.nodes.getD a default).height ≤ (g.nodes.getD b default).height)
  exact hperm.nodup_iff.mpr ((List.nodup_range _).filter _)

theorem rootsSorted_mem (g : Graph) (r : Nat) (hr : r ∈ g.rootsSorted) :
    g.indeg r = 0 ∧ r < g.nodes.length := by
  have hperm := List.mergeSort_perm
    ((List.range g.nodes.length).filter (fun v => g.indeg v == 0))
    (fun a b => (g.nodes.getD a default).height ≤ (g.nodes.getD b default).height)
  have := hperm.mem_iff.mp hr
  simp only [List.mem_filter, List.mem_range, beq_iff_eq] at this
  exact ⟨this.2, this.1⟩

theorem dfsDeepest_lt (g : Graph) (root p : Nat)
    (h : dfsDeepest g root = some p) : p < g.nodes.length := by
  rw [dfsDeepest] at h
  have key : ∀ (l : List Nat) (st : Nat × Option Nat),
      (∀ q, st.2 = some q → q < g.nodes.length) →
      ∀ q, (l.foldl
          (fun (st : Nat × Option Nat) idx =>
            let height := (g.nodes.getD idx default).height
            if height > st.1 then (height, some idx) else st) st).2 = some q →
        q < g.nodes.length := by
    intro l
    induction l with
    | nil => intro st hst q hq; exact hst q hq
    | cons idx l ih =>
      intro st hst q hq
      refine ih _ ?_ q hq
      intro q' hq'
      by_cases hgt : (g.nodes.getD idx default).height > st.1
      · simp only [hgt, if_pos trivial] at hq'
        simp only [Option.some.injEq] at hq'
        subst hq'
        by_contra hge
        push_neg at hge
        rw [List.getD_eq_default _ _ hge] at hgt
        simp [default, Inhabited.default] at hgt
      · simp only [hgt, if_neg, if_false] at hq'
        exact hst q' hq'
  exact key _ _ (by intro q hq; simp at hq) p h

theorem reconnectGo_edges_src_lt (roots : List Nat) :
    ∀ (g : Graph) (prev : Option Nat),
      (∀ e ∈ g.edges, e.1 < g.nodes.length) →
      (∀ p, prev = some p → p < g.nodes.length) →
      ∀ e ∈ (reconnectGo g prev roots).edges, e.1 < g.nodes.length := by
  induction roots with
  | nil => intro g prev hg _ e he; exact hg e he
  | cons root roots ih =>
    intro g prev hg hprev e he
    cases prev with
    | none =>
      simp only [reconnectGo] at he
      exact ih g (dfsDeepest g root) hg
        (fun p hp => dfsDeepest_lt g root p hp) e he
    | some p =>
      simp only [reconnectGo] at he
      have hg' : ∀ e ∈ ({ g with edges := g.edges ++ [(p, root)] } : Graph).edges,
          e.1 < ({ g with edges := g.edges ++ [(p, root)] } : Graph).nodes.length := by
        intro e' he'
        simp only [List.mem_append, List.mem_singleton] at he'
        rcases he' with h1 | h2
        · exact hg e' h1
        · subst h2
          exact hprev p rfl
      have := ih { g with edges := g.edges ++ [(p, root)] }
        (dfsDeepest { g with edges := g.edges ++ [(p, root)] } root) hg'
        (fun q hq => dfsDeepest_lt _ root q hq) e he
      simpa using this

theorem stripedGraph_nodes_le (tree : TreeInfo) (maxIH : Nat) (tips : List Nat) :
    (stripedGraph tree maxIH tips).nodes.length ≤ tree.graph.nodes.length := by
  simp only [stripedGraph, Graph.filterMap, List.length_map]
  exact Nat.le_trans (List.length_filter_le _ _) (by simp)

theorem stripTreeGraph_nodes (tree : TreeInfo) (maxIH : Nat) (tips : List Nat) :
    (stripTreeGraph tree maxIH tips).nodes = (stripedGraph tree maxIH tips).nodes :=
  reconnectGo_nodes _ _ _

theorem stripTreeGraph_indeg (tree : TreeInfo) (maxIH : Nat) (tips : List Nat)
    (hg : ∀ v, v < tree.graph.nodes.length → tree.graph.indeg v ≤ 1) :
    ∀ v, (stripTreeGraph tree maxIH tips).indeg v ≤ 1 := by
  intro v
  have hstr : ∀ j, (stripedGraph tree maxIH tips).indeg j ≤ 1 :=
    fun j => indeg_filterMap_le _ _ j hg
  have hrec := reconnectGo_indeg (stripedGraph tree maxIH tips).rootsSorted
    (stripedGraph tree maxIH tips) none (rootsSorted_nodup _) v
  rw [stripTreeGraph]
  by_cases hv : v ∈ (stripedGraph tree maxIH tips).rootsSorted
  · have h0 := (rootsSorted_mem _ v hv).1
    simp only [hv, if_pos trivial] at hrec
    omega
  · simp only [hv, if_neg, if_false] at hrec
    have := hstr v
    omega

theorem stripTreeGraph_edges_src_lt (tree : TreeInfo) (maxIH : Nat)
    (tips : List Nat) (e : Nat × Nat)
    (he : e ∈ (stripTreeGraph tree maxIH tips).edges) :
    e.1 < (stripedGraph tree maxIH tips).nodes.length := by
  refine reconnectGo_edges_src_lt _ _ none ?_ (by simp) e he
  intro e' he'
  simp only [stripedGraph] at he'
  have := (filterMap_edges_mem tree.graph
    (keepHeader (sortedInterestingHeights tree.graph maxIH tips)) e' he').1
  simp only [stripedGraph]
  rw [filterMap_nodes_length]
  exact this

theorem mapM_eq_some_map {α β : Type} (f : α → Option β) (gt : α → β) :
    ∀ l : List α, (∀ a ∈ l, f a = some (gt a)) →
      l.mapM f = some (l.map gt) := by
  intro l
  induction l with
  | nil => intro _; rfl
  | cons a l ih =>
    intro h
    rw [List.mapM_cons, h a (by simp), ih (fun b hb => h b (by simp [hb]))]
    rfl

theorem emitHeaders_eq (g : Graph) (h : ∀ v, g.indeg v ≤ 1) :
    emitHeaders g = some ((List.range g.nodes.length).map (emitTotal g)) := by
  apply mapM_eq_some_map
  intro idx _
  have hlen : ((g.edges.filter (fun e => e.2 == idx)).map (fun e => e.1)).reverse.length =
      g.indeg idx := by
    simp [Graph.indeg]
  cases hl : ((g.edges.filter (fun e => e.2 == idx)).map (fun e => e.1)).reverse with
  | nil => simp only [hl, emitTotal]
  | cons p rest =>
    cases rest with
    | nil => simp only [hl, emitTotal]
    | cons q rest' =>
      have := h idx
      rw [hl] at hlen
      simp at hlen
      omega

theorem emitTotal_mem_edge (g : Graph) (idx p : Nat) (rest : List Nat)
    (hl : ((g.edges.filter (fun e => e.2 == idx)).map (fun e => e.1)).reverse =
      p :: rest) :
    (p, idx) ∈ g.edges := by
  have hp : p ∈ ((g.edges.filter (fun e => e.2 == idx)).map (fun e => e.1)).reverse := by
    rw [hl]; simp
  rw [List.mem_reverse] at hp
  simp only [List.mem_map, List.mem_filter, beq_iff_eq] at hp
  obtain ⟨e, ⟨hmem, htgt⟩, hsrc⟩ := hp
  have : e = (p, idx) := by
    cases e
    simp_all
  rw [← this]
  exact hmem

/-- Claim C4 (confirmed): provided every vertex of the input graph has
in-degree at most one (and the vertex count is below `usize::MAX`, as for
any real `Vec`), `strip_tree` emits without reaching the
multiple-incoming-neighbours panic (neither the height filter nor the
root-reconnection step creates a vertex with two incoming edges), and in
the emitted list each header's `prev_id` is `usize::MAX` exactly when its
vertex has no incoming neighbour, and otherwise is its unique incoming
neighbour's synthetic id. -/
theorem c4_strip_tree_prev_id (tree : TreeInfo) (maxIH : Nat) (tips : List Nat)
    (hdeg : ∀ v, v < tree.graph.nodes.length → tree.graph.indeg v ≤ 1)
    (hsz : tree.graph.nodes.length < usizeMax) :
    ∃ hs, stripTree tree maxIH tips = some hs ∧
      ∀ hj ∈ hs,
        (hj.prev_id = usizeMax ↔ (stripTreeGraph tree maxIH tips).indeg hj.id = 0) ∧
        (hj.prev_id ≠ usizeMax →
          (hj.prev_id, hj.id) ∈ (stripTreeGraph tree maxIH tips).edges) := by
  have hGdeg : ∀ v, (stripTreeGraph tree maxIH tips).indeg v ≤ 1 :=
    stripTreeGraph_indeg tree maxIH tips hdeg
  refine ⟨_, by rw [stripTree]; exact emitHeaders_eq _ hGdeg, ?_⟩
  intro hj hmem
  obtain ⟨idx, hidx, rfl⟩ := List.mem_map.mp hmem
  have hlen : ((((stripTreeGraph tree maxIH tips).edges.filter
        (fun e => e.2 == idx)).map (fun e => e.1)).reverse).length =
      (stripTreeGraph tree maxIH tips).indeg idx := by
    simp [Graph.indeg]
  cases hl : (((stripTreeGraph tree maxIH tips).edges.filter
      (fun e => e.2 == idx)).map (fun e => e.1)).reverse with
  | nil =>
    rw [hl] at hlen
    simp only [List.length_nil] at hlen
    constructor
    · constructor
      · intro _
        simp only [emitTotal, hl, HeaderInfoJson.new]
        omega
      · intro _
        simp [emitTotal, hl, HeaderInfoJson.new]
    · intro hne
      simp [emitTotal, hl, HeaderInfoJson.new] at hne
  | cons p rest =>
    have hedge : (p, idx) ∈ (stripTreeGraph tree maxIH tips).edges :=
      emitTotal_mem_edge _ idx p rest hl
    have hplt : p < (stripedGraph tree maxIH tips).nodes.length :=
      stripTreeGraph_edges_src_lt tree maxIH tips (p, idx) hedge
    have hpne : p ≠ usizeMax := by
      have := stripedGraph_nodes_le tree maxIH tips
      omega
    have hind : (stripTreeGraph tree maxIH tips).indeg idx ≠ 0 := by
      rw [← hlen, hl]
      simp
    have hid : (emitTotal (stripTreeGraph tree maxIH tips) idx).id = idx := by
      simp [emitTotal, hl, HeaderInfoJson.new]
    rw [hid]
    constructor
    · constructor
      · intro hmax
        simp only [emitTotal, hl, HeaderInfoJson.new] at hmax
        exact absurd hmax hpne
      · intro h0
        exact absurd h0 hind
    · intro _
      simp only [emitTotal, hl, HeaderInfoJson.new]
      exact hedge

unseal List.mergeSort List.merge in
theorem c4_witness :
    (∀ v, v < tree4.graph.nodes.length → tree4.graph.indeg v ≤ 1) ∧
    tree4.graph.nodes.length < usizeMax ∧
    (∃ hs, stripTree tree4 10 [2] = some hs ∧
      ∀ hj ∈ hs,
        (hj.prev_id = usizeMax ↔ (stripTreeGraph tree4 10 [2]).indeg hj.id = 0) ∧
        (hj.prev_id ≠ usizeMax →
          (hj.prev_id, hj.id) ∈ (stripTreeGraph tree4 10 [2]).edges)) :=
  ⟨by decide, by decide,
    c4_strip_tree_prev_id tree4 10 [2] (by decide) (by decide)⟩

/-- Claim C5 (corrected), counterexample: two `HeaderMiner` updates for the
same block hash (7) leave two coexisting `recent_miners` entries for that
hash — an entry for an already-present hash does not overwrite the older
entry. -/
theorem c5_counterexample :
    (updateCache (updateCache cache5 (.headerMiner ⟨5, ⟨7, 6⟩, "A"⟩))
        (.headerMiner ⟨5, ⟨7, 6⟩, "B"⟩)).recent_miners = [(7, "A"), (7, "B")] ∧
    ¬ ((updateCache (updateCache cache5 (.headerMiner ⟨5, ⟨7, 6⟩, "A"⟩))
        (.headerMiner ⟨5, ⟨7, 6⟩, "B"⟩)).recent_miners.map Prod.fst).Nodup :=
  ⟨by decide, by decide⟩

/-- Claim C5 (corrected), amended: applying any `CacheUpdate` preserves
`recent_miners.length ≤ 5` (`HeaderMiner` pushes and evicts the oldest entry
when the length exceeds 5; no other variant touches the list), but entries
are not deduplicated by hash: a new entry for an existing hash is appended
and coexists with the older one (the `HeaderTree` splice applies them in
order, so the newest still wins there). -/
theorem c5_recent_miners_bound (cache : Cache) (update : CacheUpdate)
    (h : cache.recent_miners.length ≤ 5) :
    (updateCache cache update).recent_miners.length ≤ 5 := by
  cases update with
  | headerMiner header_info =>
    simp only [updateCache]
    split
    · simp only [List.length_eraseIdx, List.length_append, List.length_cons,
        List.length_nil]
      split
      · omega
      · omega
    · simp only [List.length_append, List.length_cons, List.length_nil] at *
      omega
  | headerTree hj f => simpa [updateCache] using h
  | nodeTips n t => simpa [updateCache] using h
  | nodeReachability n r => simpa [updateCache] using h
  | nodeVersion n v => simpa [updateCache] using h

theorem c5_witness :
    cache5.recent_miners.length ≤ 5 ∧
    (updateCache cache5 (.headerMiner ⟨5, ⟨7, 6⟩, "A"⟩)).recent_miners.length ≤ 5 :=
  ⟨by decide, c5_recent_miners_bound cache5 (.headerMiner ⟨5, ⟨7, 6⟩, "A"⟩) (by decide)⟩

/-- Claim C7 (corrected), counterexample: with two nodes at active heights
10 and 7, the trailing node is exactly `THREASHOLD_NODE_LAGGING = 3` blocks
below the fleet maximum, yet the lagging feed is empty — the comparison
`height + 3 < max` is strict, so "at least 3 blocks below" is not the
implemented criterion. -/
theorem c7_counterexample :
    cache7.node_data.length > 1 ∧
    (nodeAt 1 "b" 7, 7) ∈ nodesWithActiveHeight cache7 ∧
    ((nodesWithActiveHeight cache7).map (fun p => p.2)).max?.getD 0 = 7 + 3 ∧
    laggingNodesItems cache7 = [] :=
  ⟨by decide, by decide, by decide, by decide⟩

/-- Claim C7 (corrected), amended: for a network with more than one node,
the lagging feed contains an item exactly for each node whose active-tip
height is **more than** 3 blocks (strictly more than `THREASHOLD_NODE_LAGGING`)
below the maximum active-tip height across the network's nodes; a node
exactly 3 blocks below the fleet maximum is not listed. -/
theorem c7_lagging_iff (cache : Cache) (hlen : cache.node_data.length > 1) :
    (∀ nd h, (nd, h) ∈ nodesWithActiveHeight cache →
      h + THREASHOLD_NODE_LAGGING <
        ((nodesWithActiveHeight cache).map (fun p => p.2)).max?.getD 0 →
      laggingNodeItem nd h ∈ laggingNodesItems cache) ∧
    (∀ item ∈ laggingNodesItems cache, ∃ nd h,
      (nd, h) ∈ nodesWithActiveHeight cache ∧
      h + THREASHOLD_NODE_LAGGING <
        ((nodesWithActiveHeight cache).map (fun p => p.2)).max?.getD 0 ∧
      item = laggingNodeItem nd h) := by
  constructor
  · intro nd h hmem hlag
    simp only [laggingNodesItems, hlen, if_pos trivial]
    simp only [List.mem_map, List.mem_filter]
    exact ⟨(nd, h), ⟨hmem, by simpa using hlag⟩, rfl⟩
  · intro item hitem
    simp only [laggingNodesItems, hlen, if_pos trivial] at hitem
    simp only [List.mem_map, List.mem_filter] at hitem
    obtain ⟨⟨nd, h⟩, ⟨hmem, hlag⟩, hval⟩ := hitem
    exact ⟨nd, h, hmem, by simpa using hlag, hval.symm⟩

theorem c7_witness :
    cache7b.node_data.length > 1 ∧
    ((nodeAt 1 "b" 6, 6) ∈ nodesWithActiveHeight cache7b ∧
      6 + THREASHOLD_NODE_LAGGING <
        ((nodesWithActiveHeight cache7b).map (fun p => p.2)).max?.getD 0 ∧
      laggingNodeItem (nodeAt 1 "b" 6) 6 ∈ laggingNodesItems cache7b) :=
  ⟨by decide,
    by decide, by decide,
    (c7_lagging_iff cache7b (by decide)).1 (nodeAt 1 "b" 6) 6 (by decide) (by decide)⟩

/-- Claim C9 (corrected), counterexample: the event name carried by every
`/api/changes` server-sent event is `tip_changed`, not `cache_changed`. -/
theorem c9_counterexample :
    (data_changed_sse 0).event = "tip_changed" ∧
    (data_changed_sse 0).event ≠ "cache_changed" :=
  ⟨by decide, by decide⟩

/-- Claim C9 (corrected), amended: every event on the `/api/changes` stream
carries the event name `tip_changed` (not `cache_changed`) with data
`{network_id: u32}`; when the subscriber stream yields an error, the event's
`network_id` is `u32::MAX` as the in-band catch-up signal. -/
theorem c9_sse_event (d : Except String Nat) :
    (changeSseHandler d).event = "tip_changed" ∧
    (changeSseHandler d).data.network_id =
      (match d with
       | .ok n => n
       | .error _ => u32Max) := by
  cases d with
  | ok n => exact ⟨rfl, rfl⟩
  | error e => exact ⟨rfl, rfl⟩

/-! ### Helper lemmas for the hash-index bijection -/

theorem hmInsert_fresh (m : HashIndex) (k v : Nat)
    (h : hmContains m k = false) : hmInsert m k v = m ++ [(k, v)] := by
  simp only [hmInsert, h, Bool.false_eq_true, if_false]

theorem hmContains_append_single (m : HashIndex) (k v key : Nat) :
    hmContains (m ++ [(k, v)]) key = (hmContains m key || (k == key)) := by
  simp [hmContains]

theorem hmLookup_append_of_some (m m' : HashIndex) (key i : Nat)
    (h : hmLookup m key = some i) : hmLookup (m ++ m') key = some i := by
  simp only [hmLookup, Option.map_eq_some'] at h ⊢
  obtain ⟨p, hp, hpi⟩ := h
  refine ⟨p, ?_, hpi⟩
  rw [List.find?_append, hp]
  rfl

theorem hmLookup_append_single_fresh (m : HashIndex) (k v : Nat)
    (h : hmContains m k = false) :
    hmLookup (m ++ [(k, v)]) k = some v := by
  have hnone : m.find? (fun p => p.1 == k) = none := by
    rw [List.find?_eq_none]
    intro p hp
    simp only [hmContains, List.any_eq_false] at h
    simpa using h p hp
  simp only [hmLookup, List.find?_append, hnone]
  simp [List.find?]

theorem wellIndexed_snoc (nodes : List HeaderInfo) (index : HashIndex)
    (h : HeaderInfo) (hw : WellIndexedParts nodes index)
    (hfresh : hmContains index h.header.block_hash = false) :
    WellIndexedParts (nodes ++ [h])
      (hmInsert index h.header.block_hash nodes.length) := by
  rw [hmInsert_fresh _ _ _ hfresh]
  obtain ⟨hw1, hw2⟩ := hw
  constructor
  · intro p hp
    rcases List.mem_append.mp hp with hold | hnew
    · obtain ⟨hlt, hhash⟩ := hw1 p hold
      refine ⟨by simp; omega, ?_⟩
      rw [List.getD_append _ _ _ _ hlt]
      exact hhash
    · simp only [List.mem_singleton] at hnew
      subst hnew
      refine ⟨by simp, ?_⟩
      have : (nodes ++ [h]).getD nodes.length default = h := by
        rw [List.getD_eq_getElem _ _ (by simp)]
        simp
      rw [this]
  · intro i hi
    simp only [List.length_append, List.length_cons, List.length_nil] at hi
    by_cases hlt : i < nodes.length
    · rw [List.getD_append _ _ _ _ hlt]
      exact hmLookup_append_of_some _ _ _ _ (hw2 i hlt)
    · have hieq : i = nodes.length := by omega
      subst hieq
      have : (nodes ++ [h]).getD nodes.length default = h := by
        rw [List.getD_eq_getElem _ _ (by simp)]
        simp
      rw [this]
      exact hmLookup_append_single_fresh _ _ _ hfresh

theorem addHeaders_wellIndexed :
    ∀ (hs : List HeaderInfo) (t : TreeInfo),
      WellIndexedParts t.graph.nodes t.index →
      (∀ h ∈ hs, hmContains t.index h.header.block_hash = false) →
      (hs.map (fun h => h.header.block_hash)).Nodup →
      WellIndexedParts (addHeadersToTree hs t).graph.nodes
        (addHeadersToTree hs t).index := by
  intro hs
  induction hs with
  | nil => intro t hw _ _; exact hw
  | cons h rest ih =>
    intro t hw hfresh hnd
    simp only [addHeadersToTree]
    have hfh : hmContains t.index h.header.block_hash = false :=
      hfresh h (by simp)
    refine ih _ (wellIndexed_snoc _ _ _ hw hfh) ?_ ?_
    · intro h' hh'
      rw [hmInsert_fresh _ _ _ hfh, hmContains_append_single]
      have h1 : hmContains t.index h'.header.block_hash = false :=
        hfresh h' (by simp [hh'])
      have h2 : h.header.block_hash ≠ h'.header.block_hash := by
        simp only [List.map_cons, List.nodup_cons] at hnd
        intro hc
        exact hnd.1 (hc ▸ List.mem_map_of_mem _ hh')
      simp [h1, h2]
    · simp only [List.map_cons, List.nodup_cons] at hnd
      exact hnd.2

theorem insertPhase_wellIndexed :
    ∀ (hs : List HeaderInfo) (t : TreeInfo) (b : Bool),
      WellIndexedParts t.graph.nodes t.index →
      WellIndexedParts (insertPhase hs (t, b)).1.graph.nodes
        (insertPhase hs (t, b)).1.index := by
  intro hs
  induction hs with
  | nil => intro t b hw; exact hw
  | cons h rest ih =>
    intro t b hw
    simp only [insertPhase]
    by_cases hc : hmContains t.index h.header.block_hash = true
    · simp only [hc, if_pos trivial]
      exact ih t b hw
    · simp only [Bool.not_eq_true] at hc
      simp only [hc, Bool.false_eq_true, if_false]
      exact ih _ true (wellIndexed_snoc _ _ _ hw hc)

theorem connectHeaders_preserves (hs : List HeaderInfo) :
    ∀ t : TreeInfo, (connectHeaders hs t).graph.nodes = t.graph.nodes ∧
      (connectHeaders hs t).index = t.index := by
  induction hs with
  | nil => intro t; exact ⟨rfl, rfl⟩
  | cons h rest ih =>
    intro t
    simp only [connectHeaders, List.foldl_cons]
    cases hmLookup t.index h.header.block_hash with
    | none => exact ih t
    | some idx_current =>
      cases hmLookup t.index h.header.prev_blockhash with
      | none => exact ih t
      | some idx_prev => exact ih _

/-- Claim C6 (confirmed): building the per-network graph from the store and
inserting a batch both preserve the index/vertex bijection — every index
entry resolves to an in-range vertex carrying that hash, and every vertex is
found at its own id when its hash is looked up.  For the store load the
hypothesis is that the loaded headers have pairwise-distinct block hashes,
which the store's `(network, hash, header)` primary key guarantees for a
collision-free hash function; batch insertion needs no such hypothesis
because it skips hashes that are already indexed. -/
theorem c6_index_bijection :
    (∀ headers : List HeaderInfo,
      (headers.map (fun h => h.header.block_hash)).Nodup →
      WellIndexed (loadTreeinfos headers)) ∧
    (∀ (t : TreeInfo) (new_headers : List HeaderInfo), WellIndexed t →
      WellIndexed (insertNewHeadersIntoTree t new_headers).1) := by
  constructor
  · intro headers hnd
    rw [WellIndexed, loadTreeinfos]
    obtain ⟨he1, he2⟩ := connectHeaders_preserves headers
      (addHeadersToTree headers { graph := { nodes := [], edges := [] }, index := [] })
    rw [he1, he2]
    refine addHeaders_wellIndexed headers _ ?_ ?_ hnd
    · exact ⟨by simp, by simp⟩
    · intro h _
      simp [hmContains]
  · intro t new_headers hw
    rw [WellIndexed, insertNewHeadersIntoTree]
    obtain ⟨he1, he2⟩ := connectHeaders_preserves new_headers
      (insertPhase new_headers (t, false)).1
    simp only [he1, he2]
    exact insertPhase_wellIndexed new_headers t false hw

theorem c6_witness :
    ((dbHeaders.map (fun h => h.header.block_hash)).Nodup ∧
      WellIndexed (loadTreeinfos dbHeaders)) ∧
    (WellIndexed (loadTreeinfos dbHeaders) ∧
      WellIndexed
        (insertNewHeadersIntoTree (loadTreeinfos dbHeaders)
          [⟨4, ⟨13, 12⟩, ""⟩, ⟨1, ⟨10, 9⟩, ""⟩]).1) :=
  ⟨⟨by decide, c6_index_bijection.1 dbHeaders (by decide)⟩,
    ⟨c6_index_bijection.1 dbHeaders (by decide),
      c6_index_bijection.2 (loadTreeinfos dbHeaders)
        [⟨4, ⟨13, 12⟩, ""⟩, ⟨1, ⟨10, 9⟩, ""⟩]
        (c6_index_bijection.1 dbHeaders (by decide))⟩⟩
